import Mathlib

/-!
Verification of the Architecture Graph Engine and its rule validator
(`ai_architect/analysis/graph_engine.py`, `ai_architect/analysis/validator.py`).

The Python code is shallowly embedded: modules become an association list
keyed by module name (mirroring Python `dict` insertion order), string
operations are modelled over `List Char`, and the recursive procedures
(`_get_depth`, `has_cycle`, `trace_up`) are rendered with an explicit fuel
argument bounding the recursion depth; the canonical fuel values used by the
top-level wrappers are large enough that the fuel-exhaustion branch is
unreachable on the calls the code performs (each non-trivial nested call adds
a fresh element to the threaded `visited` set).
-/

namespace ArchAI

/-- Prefix test `isPre n h`: the char list `n` is a prefix of `h` (Python `str.startswith`
on decomposed strings). -/
def isPre : List Char → List Char → Bool
  | [], _ => true
  | _ :: _, [] => false
  | a :: n, b :: h => a == b && isPre n h

/-- Substring test `containsSub n h`: `n` occurs as a contiguous substring of `h`
(the Python `in` operator on strings). -/
def containsSub (n : List Char) : List Char → Bool
  | [] => n.isEmpty
  | b :: h => isPre n (b :: h) || containsSub n h

/-- Python `s.startswith(p)`. -/
def strStartsWith (s p : String) : Bool := isPre p.data s.data

/-- Python `s.endswith(p)`. -/
def strEndsWith (s p : String) : Bool := isPre p.data.reverse s.data.reverse

/-- Python `p in s` for strings. -/
def strContains (s p : String) : Bool := containsSub p.data s.data

/-- Python `s.lower()` (ASCII case folding as used on file paths). -/
def strLower (s : String) : String := ⟨s.data.map Char.toLower⟩

/-- Python `path_str.replace("\\", "/")` from `_infer_ownership`. -/
def slashNormalize (s : String) : String :=
  ⟨s.data.map (fun c => if c = '\\' then '/' else c)⟩

/-! Section: Data model

`FunctionNode.calls` from `graph_engine.py` is the list of lexical call
targets of one declared function; the `functions` dict of a module becomes an
ordered association list `name ↦ calls`. -/

/-- One module node of the graph (`ModuleNode` in `graph_engine.py`).
`metrics` are not stored: they are recomputed by the functions below. -/
structure PyModule where
  filePath : String
  moduleName : String
  classes : List (String × List String)
  functions : List (String × List String)
  imports : List String
  ownership : String
deriving DecidableEq, Repr

/-- The engine field `self.nodes`: module name ↦ node, in insertion order. -/
abbrev Graph := List (String × PyModule)

/-- Python `self.nodes.keys()` in insertion order. -/
def keysOf (g : Graph) : List String := g.map Prod.fst

/-- Python `self.nodes.get(name)`. -/
def lookupMod (g : Graph) (name : String) : Option PyModule :=
  match g.find? (fun p => p.1 == name) with
  | some p => some p.2
  | none => none

/-- Resolution of an import string to the first matching internal module:
`next((n for n in self.nodes.keys() if imp == n or imp.startswith(n + ".")), None)`
(shared by `get_graph_summary` and `_get_depth`). -/
def matchedInternal (g : Graph) (imp : String) : Option String :=
  (keysOf g).find? (fun n => imp == n || strStartsWith imp (n ++ "."))

/-! Section: Metrics (`GraphEngine._calculate_metrics`) -/

/-- Fan-out of a node: `len([imp for imp in node.imports if any(imp.startswith(n)
for n in self.nodes.keys())])`. -/
def fanOut (g : Graph) (node : PyModule) : Nat :=
  (node.imports.filter (fun imp => (keysOf g).any (fun n => strStartsWith imp n))).length

/-- Fan-in of a node named `name`: the number of *other* entries whose imports
contain a string starting with `name` (plain `str.startswith`). -/
def fanIn (g : Graph) (name : String) : Nat :=
  (g.filter (fun p => p.1 != name && p.2.imports.any (fun imp => strStartsWith imp name))).length

/-! Section: Dependency depth (`GraphEngine._get_depth`)

The Python function threads one mutable `visited` set through the whole
traversal (the same object is passed to sibling recursive calls), so the
embedding returns the updated set together with the depth.  `fuel` bounds the
nesting of recursive calls; every executed call inserts a fresh module into
`visited`, so `g.length + 1` fuel (used by `dependencyDepth`) is never
exhausted. -/

/-- Loop body of `_get_depth` over the imports of the node, threading the maximum
child depth and the shared `visited` set; `gd` is the recursive call one fuel
level down. -/
def depthLoop (gd : String → List String → Nat × List String) (g : Graph) :
    List String → Nat → List String → Nat × List String
  | [], acc, visited => (acc, visited)
  | imp :: rest, acc, visited =>
    match matchedInternal g imp with
    | none => depthLoop gd g rest acc visited
    | some m =>
      let r := gd m visited
      depthLoop gd g rest (max acc r.1) r.2

def getDepth (g : Graph) : Nat → String → List String → Nat × List String
  | 0, _, visited => (0, visited)
  | Nat.succ fuel, moduleName, visited =>
    if moduleName ∈ visited then (0, visited)
    else
      let visited' := visited ++ [moduleName]
      match lookupMod g moduleName with
      | none => (0, visited')
      | some node =>
        if node.imports.isEmpty then (0, visited')
        else
          let r := depthLoop (fun m v => getDepth g fuel m v) g node.imports 0 visited'
          (1 + r.1, r.2)

/-- The stored metric `node.metrics["dependency_depth"] = self._get_depth(name, set())`. -/
def dependencyDepth (g : Graph) (name : String) : Nat :=
  (getDepth g (g.length + 1) name []).1

/-! Section: Ownership inference (`GraphEngine._infer_ownership`) -/

/-- Ownership inference `GraphEngine._infer_ownership`: substring tests on the lower-cased,
slash-normalized file path, in the priority order of the source, falling back to
the `"Base"`-class heuristic and finally `"Internal"`. -/
def inferOwnership (node : PyModule) : String :=
  let p := strLower (slashNormalize node.filePath)
  if strContains p "infrastructure" || strContains p "persistence" || strContains p "caching" then
    "Infrastructure"
  else if strContains p "core" || strContains p "orchestrator" then "Core"
  else if strContains p "api" || strContains p "interface" then "Interface"
  else if strContains p "model" || strContains p "data" then "Data"
  else if strContains p "test" then "Test"
  else if node.classes.any (fun c => strContains c.1 "Base") then "Abstractions"
  else "Internal"

/-- Ownership stamping of one node (`node.ownership = self._infer_ownership(node)`). -/
def stampOwnership (node : PyModule) : PyModule :=
  PyModule.mk node.filePath node.moduleName node.classes node.functions node.imports
    (inferOwnership node)

/-- Third pass `GraphEngine._resolve_dependencies`: stamp every node with its inferred
ownership. -/
def resolveDependencies (g : Graph) : Graph :=
  g.map (fun p => (p.1, stampOwnership p.2))

/-! Section: Graph summary (`GraphEngine.get_graph_summary`)

Only the parts the validator consumes are modelled: the `relationships` list
(one `{from, to, type: "import"}` record per import string that resolves to an
internal module — the code performs no deduplication) and the per-module
`ownership` map. -/

/-- Records contributed by one module to `relationships`: one `(from, to)`
pair per import string that resolves internally. -/
def relRecordsOf (c : Graph) (name : String) (imps : List String) : List (String × String) :=
  imps.filterMap (fun imp =>
    match matchedInternal c imp with
    | some m => some (name, m)
    | none => none)

/-- The `relationships` list of the summary, as `(from, to)` pairs in
emission order. -/
def relationships (g : Graph) : List (String × String) :=
  g.flatMap (fun p => relRecordsOf g p.1 p.2.imports)

/-- Ownership map of the summary, `modules[name]["ownership"]`. -/
def summaryOwnership (g : Graph) : List (String × String) :=
  g.map (fun p => (p.1, p.2.ownership))

/-- Lookup `summary["modules"].get(m, {}).get("ownership")`: `none` when the module is
absent. -/
def ownershipOf (mods : List (String × String)) (m : String) : Option String :=
  match mods.find? (fun p => p.1 == m) with
  | some p => some p.2
  | none => none

/-! Section: Cycle rule (`NoCyclicImports.validate`, `validator.py`)

The rule builds an adjacency dict from the `relationships` records and runs a
depth-first search with one `visited` set shared across all roots and one
`path` set per root.  In the source the recursion removes `node` from `path`
before every `False` return, so the `path` of a caller is unchanged by a failed
child call; the embedding therefore passes `path` downward only and returns
the updated `visited`.  On success the source returns `path | {neighbor}`
with `neighbor ∈ path`, i.e. the current grey stack as a set; the embedding
returns that stack as a list. -/

/-- Keys of the adjacency dict: `"from"` fields in first-occurrence order. -/
def adjKeys (rels : List (String × String)) : List String :=
  (rels.map Prod.fst).foldl (fun acc a => if a ∈ acc then acc else acc ++ [a]) []

/-- Adjacency `graph.get(node, [])`: neighbor list of `node` in record order. -/
def neighborsOf (rels : List (String × String)) (node : String) : List String :=
  (rels.filter (fun r => r.1 == node)).map Prod.snd

/-- Neighbor loop of `has_cycle`: `hc` is the recursive call one fuel level
down.  A neighbor on the grey `path` is a cycle; a visited neighbor is
skipped; otherwise the DFS recurses, aborting as soon as a cycle is found. -/
def cycleLoop (hc : String → List String → List String → Bool × List String × List String) :
    List String → List String → List String → Bool × List String × List String
  | [], visited, _ => (false, visited, [])
  | nb :: rest, visited, path =>
    if nb ∈ path then (true, visited, path)
    else if nb ∈ visited then cycleLoop hc rest visited path
    else
      let r := hc nb visited path
      if r.1 then r else cycleLoop hc rest r.2.1 path

def hasCycleFrom (rels : List (String × String)) :
    Nat → String → List String → List String → Bool × List String × List String
  | 0, _, visited, _ => (false, visited, [])
  | Nat.succ fuel, node, visited, path =>
    cycleLoop (fun n v p => hasCycleFrom rels fuel n v p)
      (neighborsOf rels node) (visited ++ [node]) (node :: path)

/-- The top-level loop of `NoCyclicImports.validate`: one `has_cycle` run per
unvisited adjacency key; each detected cycle contributes one violation, here
recorded as the grey stack (the node set interpolated into the
`"Cyclic dependency detected: ..."` message). -/
def cycleTopLoop (rels : List (String × String)) :
    List String → List String → List (List String) → List (List String)
  | [], _, acc => acc
  | n :: rest, visited, acc =>
    if n ∈ visited then cycleTopLoop rels rest visited acc
    else
      let r := hasCycleFrom rels (2 * rels.length + 1) n visited []
      cycleTopLoop rels rest r.2.1 (if r.1 then acc ++ [r.2.2] else acc)

/-- Rule `NoCyclicImports.validate`, taking the `relationships` list of the summary. -/
def noCyclicImports (rels : List (String × String)) : List (List String) :=
  cycleTopLoop rels (adjKeys rels) [] []

/-! Section: Layered rule (`LayeredArchitectureViolation.validate`) -/

/-- The `ALLOWED_DOWNWARD` table; `.get(from_layer, set())` yields the empty
set for tags outside the table. -/
def allowedDownward (layer : String) : List String :=
  if layer == "Interface" then ["Core", "Infrastructure", "Data", "Abstractions", "Internal"]
  else if layer == "Core" then ["Infrastructure", "Data", "Abstractions", "Internal"]
  else if layer == "Infrastructure" then ["Data", "Abstractions", "Internal", "Core"]
  else if layer == "Data" then ["Abstractions", "Internal", "Infrastructure"]
  else if layer == "Abstractions" then
    ["Internal", "Core", "Infrastructure", "Data", "Interface"]
  else if layer == "Internal" then
    ["Interface", "Core", "Infrastructure", "Data", "Abstractions", "Internal"]
  else if layer == "Test" then
    ["Interface", "Core", "Infrastructure", "Data", "Abstractions", "Internal"]
  else []

/-- One appended violation of the layered rule; the source renders it as
`f"Layer Violation: {src} ({srcLayer}) calls UP to {dst} ({dstLayer})"`. -/
structure LayerViolation where
  src : String
  srcLayer : String
  dst : String
  dstLayer : String
deriving DecidableEq, Repr

/-- The violation message text built by `LayeredArchitectureViolation.validate`. -/
def renderLayerViolation (v : LayerViolation) : String :=
  "Layer Violation: " ++ v.src ++ " (" ++ v.srcLayer ++ ") calls UP to " ++
    v.dst ++ " (" ++ v.dstLayer ++ ")"

/-- Rule `LayeredArchitectureViolation.validate` over the module-ownership
map and `relationships`: one violation per offending edge record.  The
`from_layer and to_layer` truthiness test of the source is the
`some`/non-empty check. -/
def layeredValidate (mods : List (String × String)) (rels : List (String × String)) :
    List LayerViolation :=
  rels.filterMap (fun rel =>
    match ownershipOf mods rel.1, ownershipOf mods rel.2 with
    | some fromLayer, some toLayer =>
      if fromLayer ≠ "" ∧ toLayer ≠ "" ∧ fromLayer ≠ toLayer ∧
          toLayer ∉ allowedDownward fromLayer then
        some (LayerViolation.mk rel.1 fromLayer rel.2 toLayer)
      else none
    | _, _ => none)

/-! Section: Impact tracer (`GraphEngine.get_impact_scope`)

`trace_up` mutates a shared `impacted` list and `visited` set; the embedding
threads the pair through the nested loops over modules, functions, and calls.
Recursion into `trace_up(full_func_name, depth + 1)` happens on *every*
matching call, inside the match branch but outside the dedup check. -/

/-- One `{name, depth, file}` record of an impact result. -/
structure ImpactRec where
  name : String
  depth : Nat
  file : String
deriving DecidableEq, Repr

/-- The dedup check `full_func_name not in ...` against the recorded impact names. -/
def impactedHasName (impacted : List ImpactRec) (n : String) : Bool :=
  impacted.any (fun i => i.name == n)

/-- Match test of `trace_up`: the call equals the search key, or one of the two
ends with a dot followed by the other. -/
def callMatches (currentSymbol call : String) : Bool :=
  currentSymbol == call || strEndsWith currentSymbol ("." ++ call) ||
    strEndsWith call ("." ++ currentSymbol)

/-- Path relativization `str(node.file_path.relative_to(self.root_path))`. -/
def relTo (root fp : String) : String :=
  if strStartsWith fp (root ++ "/") then fp.drop (root.length + 1) else fp

/-- Innermost loop of `trace_up` over the raw call list of one function; `tu` is
the recursive `trace_up` call one fuel level down.  A matching call records
the enclosing function (if its name is not yet present) and always recurses
on it at `depth + 1`. -/
def traceCallLoop (tu : String → Nat → List ImpactRec × List String → List ImpactRec × List String)
    (root : String) (currentSymbol : String) (depth : Nat) (fullFuncName fp : String) :
    List String → List ImpactRec × List String → List ImpactRec × List String
  | [], st => st
  | call :: rest, st =>
    if callMatches currentSymbol call then
      let st1 :=
        if impactedHasName st.1 fullFuncName then st
        else (st.1 ++ [ImpactRec.mk fullFuncName depth (relTo root fp)], st.2)
      traceCallLoop tu root currentSymbol depth fullFuncName fp rest
        (tu fullFuncName (depth + 1) st1)
    else traceCallLoop tu root currentSymbol depth fullFuncName fp rest st

/-- Loop of `trace_up` over the functions dict of one module. -/
def traceFuncLoop (tu : String → Nat → List ImpactRec × List String → List ImpactRec × List String)
    (root : String) (currentSymbol : String) (depth : Nat) (modName fp : String) :
    List (String × List String) → List ImpactRec × List String → List ImpactRec × List String
  | [], st => st
  | (funcName, calls) :: rest, st =>
    traceFuncLoop tu root currentSymbol depth modName fp rest
      (traceCallLoop tu root currentSymbol depth (modName ++ "." ++ funcName) fp calls st)

/-- Loop of `trace_up` over all modules of the graph. -/
def traceModLoop (tu : String → Nat → List ImpactRec × List String → List ImpactRec × List String)
    (root : String) (currentSymbol : String) (depth : Nat) :
    List (String × PyModule) → List ImpactRec × List String → List ImpactRec × List String
  | [], st => st
  | (modName, node) :: rest, st =>
    traceModLoop tu root currentSymbol depth rest
      (traceFuncLoop tu root currentSymbol depth modName node.filePath node.functions st)

def traceUp (g : Graph) (root : String) (maxDepth : Nat) :
    Nat → String → Nat → List ImpactRec × List String → List ImpactRec × List String
  | 0, _, _, st => st
  | Nat.succ fuel, currentSymbol, depth, st =>
    if depth > maxDepth || currentSymbol ∈ st.2 then st
    else
      traceModLoop (fun s d st' => traceUp g root maxDepth fuel s d st')
        root currentSymbol depth g (st.1, st.2 ++ [currentSymbol])

/-- The trailing module-level import scan of `get_impact_scope`: for every node
and import, `target_symbol == imp or target_symbol.startswith(imp + ".")`
appends a synthetic `"Module Import: <module>"` record at depth 1. -/
def importScan (g : Graph) (root target : String) : List ImpactRec :=
  g.flatMap (fun p =>
    (p.2.imports.filter (fun imp => target == imp || strStartsWith target (imp ++ "."))).map
      (fun _ => ImpactRec.mk ("Module Import: " ++ p.1) 1 (relTo root p.2.filePath)))

/-- Fuel that the nesting of executed `trace_up` calls can never exhaust: each
executed call appends a fresh symbol to `visited`, and at most
`1 + Σ |functions|` distinct symbols ever enter it. -/
def traceFuel (g : Graph) : Nat :=
  (g.map (fun p => p.2.functions.length)).sum + 2

/-- Query `GraphEngine.get_impact_scope(target_symbol, max_depth)`.  Note that the
`target_name` bare-segment normalization in the source is
dead: `trace_up` is started on the *original* `target_symbol`. -/
def getImpactScope (g : Graph) (root target : String) (maxDepth : Nat) : List ImpactRec :=
  (traceUp g root maxDepth (traceFuel g) target 1 ([], [])).1 ++ importScan g root target

/-! Section: Project build (`GraphEngine.analyze_project`, `_analyze_file`)

The file system is passed in as the result of the `rglob` walk of the root:
`none` models a non-existent root, for which the glob machinery of `pathlib`
(`_Selector.select_from` checks `is_dir` and returns an empty iterator)
silently yields no paths and raises nothing.  The per-file front end
(`ast.parse` plus the symbol/import extraction of `_analyze_file`) is the
out-of-scope parser collaborator, passed as a function returning
`Except`: an `error` result models the `except Exception` branch, which logs
a warning and leaves the node with its empty initial data. -/

/-- The extracted contents of one successfully parsed file. -/
structure ParseData where
  classes : List (String × List String)
  functions : List (String × List String)
  imports : List String
deriving DecidableEq, Repr

/-- Directory names skipped by the walk (`self.ignore_dirs`). -/
def ignoreDirs : List String :=
  [".git", "__pycache__", ".venv", "venv", "env", "node_modules", "dist", "build"]

/-- Split a char list at every occurrence of `sep`. -/
def splitOnChar (sep : Char) : List Char → List (List Char)
  | [] => [[]]
  | c :: rest =>
    if c == sep then [] :: splitOnChar sep rest
    else
      match splitOnChar sep rest with
      | h :: t => (c :: h) :: t
      | [] => [[c]]

/-- Python `path.parts`, on slash-separated path strings (an absolute path
contributes a leading empty segment, which is never in `ignoreDirs`). -/
def pathParts (p : String) : List String := (splitOnChar '/' p.data).map String.mk

/-- Suffix removal, `with_suffix` with an empty suffix, for the `.py` files the walk yields. -/
def stripPy (p : String) : String :=
  if strEndsWith p ".py" then p.dropRight 3 else p

/-- Python `file_path.stem`: last path component without its suffix. -/
def pathStem (p : String) : String :=
  stripPy ((pathParts p).getLastD p)

/-- Module naming `GraphEngine.resolve_module_name`: dot-joined path segments relative to the
root, falling back to the stem when `relative_to` fails. -/
def resolveModuleName (root fp : String) : String :=
  if strStartsWith fp (root ++ "/") then
    String.intercalate "." (pathParts (stripPy (fp.drop (root.length + 1))))
  else pathStem fp

/-- The first-pass node for a file: empty symbol and import data. -/
def initialNode (root fp : String) : PyModule :=
  PyModule.mk fp (resolveModuleName root fp) [] [] [] "Unknown"

/-- Second pass `GraphEngine._analyze_file`: fill the node from the parse result, or keep
it untouched (warning logged) when the front end fails. -/
def analyzeFile (parse : String → Except String ParseData) (node : PyModule) : PyModule :=
  match parse node.filePath with
  | Except.error _ => node
  | Except.ok d =>
    PyModule.mk node.filePath node.moduleName d.classes d.functions d.imports node.ownership

/-- Surviving files of the walk: the `rglob` result minus ignored
directories. -/
def filesOf (listing : Option (List String)) : List String :=
  (match listing with | none => [] | some l => l).filter
    (fun p => !(pathParts p).any (fun part => part ∈ ignoreDirs))

/-- Build `GraphEngine.analyze_project` up to and including the ownership pass
(metrics are recomputed on demand by the functions above).  `listing` is the
`rglob` result; `none` is a non-existent root. -/
def analyzeProject (root : String) (listing : Option (List String))
    (parse : String → Except String ParseData) : Graph :=
  let firstPass : Graph :=
    (filesOf listing).map (fun p => (resolveModuleName root p, initialNode root p))
  resolveDependencies (firstPass.map (fun p => (p.1, analyzeFile parse p.2)))

/-! Section: Spec-side definitions for the metric claims

These two definitions follow the wording of the specification — fan-out as the
count of *distinct* import strings matching the id of some *other* node by the
equal-or-prefix-with-trailing-dot rule, fan-in likewise — so that they can be
compared against the source-derived `fanOut`/`fanIn` above. -/

/-- Fan-out as the specification words it: distinct strings of `node.imports`
equal to the id of another node or starting with that id followed by `"."`. -/
def specFanOut (g : Graph) (name : String) (node : PyModule) : Nat :=
  (node.imports.dedup.filter (fun imp =>
    (keysOf g).any (fun n => n != name && (imp == n || strStartsWith imp (n ++ "."))))).length

/-- Fan-in as the specification words it for the node named `name`: the number of other
nodes with some import equal to `name` or starting with `name ++ "."`. -/
def specFanIn (g : Graph) (name : String) : Nat :=
  (g.filter (fun p => p.1 != name &&
    p.2.imports.any (fun imp => imp == name || strStartsWith imp (name ++ ".")))).length

/-! Section: Walks and topological orders (for the cycle-rule proof) -/

/-- The import-edge relation of a `relationships` list. -/
def EdgeOf (rels : List (String × String)) (a b : String) : Prop := (a, b) ∈ rels

/-- A closed walk: some vertex `a` and a vertex list `l` such that
`a :: (l ++ [a])` is consecutively linked by import edges (at least one
edge). -/
def HasClosedWalk (rels : List (String × String)) : Prop :=
  ∃ a l, List.Chain' (EdgeOf rels) (a :: (l ++ [a]))

/-- All endpoint occurrences of the edge list (the node universe the DFS can
ever visit). -/
def univRel (rels : List (String × String)) : List String :=
  rels.map Prod.fst ++ rels.map Prod.snd

/-- Number of universe entries not yet visited: the quantity that shrinks at
every executed `has_cycle` call. -/
def freshCount (rels : List (String × String)) (visited : List String) : Nat :=
  ((univRel rels).filter (fun x => decide (x ∉ visited))).length

/-- Finish-order predicate: `L` lists finished vertices latest-first: every out-edge of an element
points into its strict tail. -/
def TopoOk (rels : List (String × String)) : List String → Prop
  | [] => True
  | a :: rest => (∀ y, (a, y) ∈ rels → y ∈ rest) ∧ TopoOk rels rest

/-- Invariant of the DFS of `NoCyclicImports.validate`: the grey stack `path`
is inside `visited`, and the finished vertices (`visited` minus `path`)
carry a duplicate-free finish-order list `L` whose out-edges all point to
earlier-finished vertices. -/
def CycleInv (rels : List (String × String)) (visited path : List String) : Prop :=
  path ⊆ visited ∧
    ∃ L : List String, L.Nodup ∧ (∀ x, x ∈ L ↔ (x ∈ visited ∧ x ∉ path)) ∧ TopoOk rels L

/-- Full specification of one `has_cycle(node, visited, path)` call at a given
fuel (conclusion of the mutual fuel induction). -/
def HCspec (rels : List (String × String)) (fuel : Nat) : Prop :=
  ∀ node visited path,
    CycleInv rels visited path →
    node ∉ visited →
    node ∈ univRel rels →
    List.Chain' (fun a b => (b, a) ∈ rels) (node :: path) →
    freshCount rels visited ≤ fuel →
    let r := hasCycleFrom rels fuel node visited path
    visited ⊆ r.2.1 ∧ node ∈ r.2.1 ∧
      (r.1 = true → HasClosedWalk rels) ∧
      (r.1 = false → CycleInv rels r.2.1 path)

/-- Full specification of the neighbor loop of `has_cycle` at a given fuel. -/
def CLspec (rels : List (String × String)) (fuel : Nat) : Prop :=
  ∀ nbs node visited path,
    CycleInv rels visited (node :: path) →
    List.Chain' (fun a b => (b, a) ∈ rels) (node :: path) →
    (∀ nb, nb ∈ nbs → (node, nb) ∈ rels) →
    freshCount rels visited ≤ fuel →
    let r := cycleLoop (fun n v p => hasCycleFrom rels fuel n v p) nbs visited (node :: path)
    visited ⊆ r.2.1 ∧
      (r.1 = true → HasClosedWalk rels) ∧
      (r.1 = false → CycleInv rels r.2.1 (node :: path) ∧
        ∀ nb, nb ∈ nbs → nb ∈ r.2.1 ∧ nb ∉ node :: path)

/-! Section: Concrete projects used by the individual claims -/

/-- A parse result with no symbols and the given imports. -/
def importsOnly (imps : List String) : ParseData := ParseData.mk [] [] imps

/-- Project for the fan-in/fan-out claim: modules `a`, `ab`, `x`, where `x`
has `ab` among its imports (plain `startswith` also counts that as matching node `a`). -/
def gFan : Graph :=
  analyzeProject "/r" (some ["/r/a.py", "/r/ab.py", "/r/x.py"])
    (fun p => if p == "/r/x.py" then Except.ok (importsOnly ["ab"])
      else Except.ok (importsOnly []))

/-- Project with a module importing itself twice (e.g. two `import a`
statements in `a.py`). -/
def gSelfImp : Graph :=
  analyzeProject "/r" (some ["/r/a.py"]) (fun _ => Except.ok (importsOnly ["a", "a"]))

/-- Project for the cycle-rule scenario: `pkg.a` and `pkg.b` import each
other. -/
def gCyc : Graph :=
  analyzeProject "/r" (some ["/r/pkg/a.py", "/r/pkg/b.py"])
    (fun p => if p == "/r/pkg/a.py" then Except.ok (importsOnly ["pkg.b"])
      else Except.ok (importsOnly ["pkg.a"]))

/-- Project for layered-rule scenario 2: `pkg.data.models` imports
`pkg.interface.api`. -/
def gLayerUp : Graph :=
  analyzeProject "/r" (some ["/r/pkg/data/models.py", "/r/pkg/interface/api.py"])
    (fun p => if p == "/r/pkg/data/models.py" then
        Except.ok (importsOnly ["pkg.interface.api"])
      else Except.ok (importsOnly []))

/-- Project for layered-rule scenario 1: `pkg.core.engine` imports
`pkg.infrastructure.cache`. -/
def gLayerDown : Graph :=
  analyzeProject "/r" (some ["/r/pkg/infrastructure/cache.py", "/r/pkg/core/engine.py"])
    (fun p => if p == "/r/pkg/core/engine.py" then
        Except.ok (importsOnly ["pkg.infrastructure.cache"])
      else Except.ok (importsOnly []))

/-- Project for the impact-monotonicity claim: module `m` with functions
`a1 → t`, `a2 → a1`, `a3 → a2`, `q → a3, t`, `p → q`, `k2 → p` (arrows are
calls). -/
def gImpact : Graph :=
  analyzeProject "/r" (some ["/r/m.py"])
    (fun _ => Except.ok (ParseData.mk []
      [("a1", ["t"]), ("a2", ["a1"]), ("a3", ["a2"]),
       ("q", ["a3", "t"]), ("p", ["q"]), ("k2", ["p"])] []))

/-- Project for the dependency-depth claim: one module importing only the
external library `os`. -/
def gExternal : Graph :=
  analyzeProject "/r" (some ["/r/a.py"]) (fun _ => Except.ok (importsOnly ["os"]))

/-- Project for the relationship-deduplication claim: `m` contains two import
statements both resolving to `x`. -/
def gDup : Graph :=
  analyzeProject "/r" (some ["/r/m.py", "/r/x.py"])
    (fun p => if p == "/r/m.py" then Except.ok (importsOnly ["x", "x"])
      else Except.ok (importsOnly []))

/-- Project for the impact-scope scenario: `X.foo` called by `Y.baz`, itself
called by `Z.qux`. -/
def gCallChain : Graph :=
  analyzeProject "/r" (some ["/r/X.py", "/r/Y.py", "/r/Z.py"])
    (fun p => if p == "/r/X.py" then Except.ok (ParseData.mk [] [("foo", [])] [])
      else if p == "/r/Y.py" then Except.ok (ParseData.mk [] [("baz", ["foo"])] [])
      else Except.ok (ParseData.mk [] [("qux", ["baz"])] []))

/-- Parser for the per-file-failure witness: `/r/bad.py` fails to parse,
`/r/good.py` yields one function. -/
def parseMixed : String → Except String ParseData :=
  fun p => if p == "/r/bad.py" then Except.error "SyntaxError"
    else Except.ok (ParseData.mk [] [("f", [])] ["os"])

/-- Project for the per-file-failure witness. -/
def gMixed : Graph := analyzeProject "/r" (some ["/r/bad.py", "/r/good.py"]) parseMixed

/-- Project for the ownership claim: the root path itself contains `core`,
and one file additionally contains the higher-priority token
`infrastructure`. -/
def gOwn : Graph :=
  analyzeProject "/repo/core_app"
    (some ["/repo/core_app/infrastructure/x.py", "/repo/core_app/main.py"])
    (fun _ => Except.ok (importsOnly []))

/-! Section: Bridging lemmas between the executable string tests and
the list predicates of Mathlib. -/

theorem isPre_iff {n h : List Char} : isPre n h = true ↔ n <+: h := by
  induction n generalizing h with
  | nil => simp [isPre]
  | cons a n ih =>
    cases h with
    | nil => simp [isPre]
    | cons b h => simp [isPre, List.cons_prefix_cons, ih, and_comm]

theorem containsSub_iff {n h : List Char} : containsSub n h = true ↔ n <:+: h := by
  induction h with
  | nil => simp [containsSub, List.isEmpty_iff]
  | cons b h ih =>
    rw [List.infix_cons_iff]
    simp [containsSub, isPre_iff, ih]

theorem strStartsWith_iff {s p : String} : strStartsWith s p = true ↔ p.data <+: s.data :=
  isPre_iff

theorem strContains_iff {s p : String} : strContains s p = true ↔ p.data <:+: s.data :=
  containsSub_iff

/-! Section: Claim C6 — behavior on a non-existent root. -/

/-- Claim C6, counterexample: over a non-existent root (`rglob` yields
nothing), `analyze_project` completes and produces a graph with zero nodes;
no construction error exists anywhere in the control flow (the embedding of
the build is a total function into `Graph`). -/
theorem missingRoot_counterexample :
    analyzeProject "/proj" none (fun _ => Except.ok (importsOnly [])) = [] := rfl

/-- Claim C6, amended: building over a non-existent root silently yields an
empty graph — the glob yields no files, every later pass iterates
over nothing, and no error is reported to the caller. -/
theorem analyzeProject_missingRoot_empty :
    ∀ (root : String) (parse : String → Except String ParseData),
      analyzeProject root none parse = [] :=
  fun _ _ => rfl

/-! Section: Claim C5 — dependency depth of nodes with no internal imports. -/

theorem depthLoop_all_none (gd : String → List String → Nat × List String) (g : Graph) :
    ∀ (imps : List String) (acc : Nat) (visited : List String),
      (∀ imp ∈ imps, matchedInternal g imp = none) →
      depthLoop gd g imps acc visited = (acc, visited) := by
  intro imps
  induction imps with
  | nil => intro acc visited _; rfl
  | cons imp rest ih =>
    intro acc visited h
    have h0 : matchedInternal g imp = none := h imp (List.mem_cons_self imp rest)
    simp only [depthLoop, h0]
    exact ih acc visited (fun i hi => h i (List.mem_cons_of_mem imp hi))

/-- Claim C5, amended: the stored `dependency_depth` is `0` exactly for nodes
with an *empty* import list; a node whose imports are all external (no string
resolves to an internal module) gets depth `1`, because `_get_depth` returns
`1 + max_child_depth` for every node with a non-empty import list. -/
theorem dependencyDepth_no_internal_imports :
    ∀ (g : Graph) (name : String) (node : PyModule),
      lookupMod g name = some node →
      (node.imports = [] → dependencyDepth g name = 0) ∧
      ((∀ imp ∈ node.imports, matchedInternal g imp = none) → node.imports ≠ [] →
        dependencyDepth g name = 1) := by
  intro g name node h
  constructor
  · intro hnil
    simp [dependencyDepth, getDepth, h, hnil]
  · intro hnone hne
    have hempty : node.imports.isEmpty = false := by
      cases hi : node.imports with
      | nil => exact absurd hi hne
      | cons a l => rfl
    simp [dependencyDepth, getDepth, h, hempty, depthLoop_all_none _ _ _ _ _ hnone]

/-- Claim C5, counterexample: the single-module project importing only the
external library `os` has `dependency_depth` 1, not 0. -/
theorem externalOnly_depth_counterexample :
    (lookupMod gExternal "a").map PyModule.imports = some ["os"] ∧
      matchedInternal gExternal "os" = none ∧
      dependencyDepth gExternal "a" ≠ 0 := by decide

/-- Witness for `dependencyDepth_no_internal_imports` at concrete projects. -/
theorem dependencyDepth_no_internal_imports_witness :
    dependencyDepth gFan "a" = 0 ∧ dependencyDepth gExternal "a" = 1 :=
  ⟨(dependencyDepth_no_internal_imports gFan "a"
      (PyModule.mk "/r/a.py" "a" [] [] [] "Internal") (by decide)).1 rfl,
   (dependencyDepth_no_internal_imports gExternal "a"
      (PyModule.mk "/r/a.py" "a" [] [] ["os"] "Internal") (by decide)).2
     (by decide) (by decide)⟩

/-! Section: Claim C7 — the relationships list is not deduplicated. -/

theorem relRecordsOf_count_self (c : Graph) (n : String) :
    ∀ (imps : List String) (tgt : String),
      (relRecordsOf c n imps).count (n, tgt) =
        imps.countP (fun imp => matchedInternal c imp == some tgt) := by
  intro imps tgt
  simp only [relRecordsOf]
  induction imps with
  | nil => rfl
  | cons imp rest ih =>
    rw [List.filterMap_cons, List.countP_cons]
    cases h : matchedInternal c imp with
    | none => simp [h, ih]
    | some m =>
      by_cases hm : m = tgt
      · subst hm; simp [h, List.count_cons, ih]
      · simp [h, List.count_cons, ih, hm, Prod.ext_iff]

theorem relRecordsOf_fst (c : Graph) (n : String) (imps : List String) :
    ∀ x ∈ relRecordsOf c n imps, x.1 = n := by
  intro x hx
  rw [relRecordsOf, List.mem_filterMap] at hx
  obtain ⟨imp, _, heq⟩ := hx
  cases h : matchedInternal c imp with
  | none => rw [h] at heq; exact absurd heq (by simp)
  | some m => rw [h] at heq; cases heq; rfl

theorem relRecordsOf_count_other (c : Graph) (n : String) (imps : List String)
    (name tgt : String) (hne : name ≠ n) :
    (relRecordsOf c n imps).count (name, tgt) = 0 := by
  rw [List.count_eq_zero]
  intro hmem
  exact hne (relRecordsOf_fst c n imps _ hmem)

theorem relFlat_count (c : Graph) :
    ∀ (entries : Graph), (keysOf entries).Nodup →
      ∀ (name : String) (node : PyModule) (tgt : String), (name, node) ∈ entries →
        ((entries.flatMap (fun p => relRecordsOf c p.1 p.2.imports)).count (name, tgt) =
          node.imports.countP (fun imp => matchedInternal c imp == some tgt)) := by
  intro entries
  induction entries with
  | nil => intro _ name node tgt hmem; exact absurd hmem (List.not_mem_nil _)
  | cons e rest ih =>
    intro hnodup name node tgt hmem
    have hnodup' : (keysOf rest).Nodup := (List.nodup_cons.mp hnodup).2
    have hhead : e.1 ∉ keysOf rest := (List.nodup_cons.mp hnodup).1
    rw [List.flatMap_cons, List.count_append]
    rcases List.mem_cons.mp hmem with heq | hrest
    · have h1 : e.1 = name := by rw [← heq]
      have h2 : e.2 = node := by rw [← heq]
      have hzero : ((rest.flatMap (fun p => relRecordsOf c p.1 p.2.imports)).count (name, tgt)) = 0 := by
        rw [List.count_eq_zero]
        intro hmem2
        rw [List.mem_flatMap] at hmem2
        obtain ⟨p, hp, hrec⟩ := hmem2
        have hfst : name = p.1 := relRecordsOf_fst c p.1 p.2.imports _ hrec
        apply hhead
        rw [h1, hfst]
        exact List.mem_map_of_mem Prod.fst hp
      rw [hzero, ← h1, ← h2, relRecordsOf_count_self, Nat.add_zero]
    · have hname : name ∈ keysOf rest := List.mem_map_of_mem Prod.fst hrest
      have hne : name ≠ e.1 := fun h => hhead (h ▸ hname)
      rw [relRecordsOf_count_other c e.1 e.2.imports name tgt hne,
        ih hnodup' name node tgt hrest, Nat.zero_add]

/-- Claim C7, amended: the `relationships` list is *not* deduplicated — it
contains one `(from, to)` record per import-string occurrence that resolves
to an internal module, so a module with several imports resolving to the same
target contributes that record several times. -/
theorem relationships_count_per_occurrence :
    ∀ (g : Graph), (keysOf g).Nodup →
      ∀ (name : String) (node : PyModule) (tgt : String), (name, node) ∈ g →
        (relationships g).count (name, tgt) =
          node.imports.countP (fun imp => matchedInternal g imp == some tgt) :=
  fun g hnodup name node tgt hmem => relFlat_count g g hnodup name node tgt hmem

/-- Claim C7, counterexample: a module with two import statements resolving to
the same internal target produces the record `("m", "x")` twice. -/
theorem relationships_duplicate_counterexample :
    relationships gDup = [("m", "x"), ("m", "x")] ∧
      (relationships gDup).count ("m", "x") = 2 := by decide

/-- Witness for `relationships_count_per_occurrence` at the duplicate
project. -/
theorem relationships_count_per_occurrence_witness :
    (relationships gDup).count ("m", "x") =
      (["x", "x"].countP (fun imp => matchedInternal gDup imp == some "x")) :=
  relationships_count_per_occurrence gDup (by decide) "m"
    (PyModule.mk "/r/m.py" "m" [] [] ["x", "x"] "Internal") "x" (by decide)

/-! Section: Claim C1 — what fan-out and fan-in actually count. -/

/-- Claim C1, amended: the computed metrics use plain string-prefix matching
with no trailing-dot requirement; `fan_out` counts import-string
*occurrences* (duplicates included) whose prefix is *any* node id — the
own id of the node included — and `fan_in` counts the other nodes having
some import string that starts with the id of the node. -/
theorem fan_metrics_plain_matching :
    ∀ (g : Graph) (name : String) (node : PyModule),
      fanOut g node =
        node.imports.countP (fun imp => decide (∃ n ∈ keysOf g, n.data <+: imp.data)) ∧
      fanIn g name =
        (g.filter (fun p =>
          decide (p.1 ≠ name ∧ ∃ imp ∈ p.2.imports, name.data <+: imp.data))).length := by
  intro g name node
  constructor
  · rw [fanOut, List.countP_eq_length_filter]
    congr 1
    apply List.filter_congr
    intro imp _
    rw [Bool.eq_iff_iff]
    simp [List.any_eq_true, strStartsWith_iff]
  · rw [fanIn]
    congr 1
    apply List.filter_congr
    intro p _
    rw [Bool.eq_iff_iff]
    simp [List.any_eq_true, strStartsWith_iff]

/-- Claim C1, counterexample: in `gFan` the import string `"ab"` of module
`x` plain-prefix-matches node `a`, so the code counts `x` into `fan_in(a)`
although the equal-or-dot-prefix rule of the spec does not; and in `gSelfImp` a
module importing itself twice gets `fan_out = 2` although the spec counts
distinct matches of *other* nodes only. -/
theorem fan_metrics_counterexample :
    fanIn gFan "a" = 1 ∧ specFanIn gFan "a" = 0 ∧
      (lookupMod gSelfImp "a").map (fanOut gSelfImp) = some 2 ∧
      (lookupMod gSelfImp "a").map (specFanOut gSelfImp "a") = some 0 := by decide

/-! Section: Claim C8 — impact scope of the `foo`/`baz`/`qux` call chain. -/

/-- Claim C8, confirmed: with `X.foo` called by `Y.baz` and `Y.baz` called by
`Z.qux` (and no other matching calls or imports of `foo`),
`get_impact_scope("foo", 1)` returns exactly `Y.baz` at depth 1, and
`get_impact_scope("foo", 2)` additionally returns `Z.qux` at depth 2. -/
theorem impact_scope_call_chain :
    getImpactScope gCallChain "/r" "foo" 1 = [ImpactRec.mk "Y.baz" 1 "Y.py"] ∧
      getImpactScope gCallChain "/r" "foo" 2 =
        [ImpactRec.mk "Y.baz" 1 "Y.py", ImpactRec.mk "Z.qux" 2 "Z.py"] := by decide

/-! Section: Claim C4 — impact results are not monotonic in the depth bound. -/

theorem traceUp_maxDepth_zero (g : Graph) (root : String) :
    ∀ (fuel : Nat) (k : String) (st : List ImpactRec × List String),
      traceUp g root 0 fuel k 1 st = st := by
  intro fuel k st
  cases fuel with
  | zero => rfl
  | succ f => simp [traceUp]

/-- Claim C4, amended: the results are *not* monotonic in `max_depth` (see the
counterexample); what does hold is that the trailing module-import records are
independent of the bound — they form a fixed suffix of every result, and with
`max_depth = 0` they are the entire result. -/
theorem impact_scope_import_suffix :
    (∀ (g : Graph) (root target : String) (d : Nat),
      importScan g root target <:+ getImpactScope g root target d) ∧
    (∀ (g : Graph) (root target : String),
      getImpactScope g root target 0 = importScan g root target) := by
  constructor
  · intro g root target d
    exact List.suffix_append _ _
  · intro g root target
    rw [getImpactScope, traceUp_maxDepth_zero]
    rfl

/-- Claim C4, counterexample: in `gImpact` with target `t`, the record
`m.k2` is returned at depth 3 for `max_depth = 3` but is *absent* from the
result for `max_depth = 5`, and the record for `m.q` changes its depth from 1
to 4 — increasing the bound removed one entry and altered another. -/
theorem impact_monotonicity_counterexample :
    3 ≤ 5 ∧
      (getImpactScope gImpact "/r" "t" 3).filter (fun r => r.name == "m.k2") =
        [ImpactRec.mk "m.k2" 3 "m.py"] ∧
      (getImpactScope gImpact "/r" "t" 5).filter (fun r => r.name == "m.k2") = [] ∧
      (getImpactScope gImpact "/r" "t" 3).filter (fun r => r.name == "m.q") =
        [ImpactRec.mk "m.q" 1 "m.py"] ∧
      (getImpactScope gImpact "/r" "t" 5).filter (fun r => r.name == "m.q") =
        [ImpactRec.mk "m.q" 4 "m.py"] := by decide

/-! Section: Shape of the build (used by claims C9 and C10). -/

theorem analyzeProject_eq (root : String) (listing : Option (List String))
    (parse : String → Except String ParseData) :
    analyzeProject root listing parse =
      (filesOf listing).map (fun p =>
        (resolveModuleName root p, stampOwnership (analyzeFile parse (initialNode root p)))) := by
  simp [analyzeProject, resolveDependencies, List.map_map]

theorem analyzeFile_filePath (parse : String → Except String ParseData) (node : PyModule) :
    (analyzeFile parse node).filePath = node.filePath := by
  cases h : parse node.filePath with
  | error e => simp [analyzeFile, h]
  | ok d => simp [analyzeFile, h]

theorem analyzeFile_congr {parse parse2 : String → Except String ParseData}
    (node : PyModule) (h : parse node.filePath = parse2 node.filePath) :
    analyzeFile parse node = analyzeFile parse2 node := by
  unfold analyzeFile
  rw [h]

theorem forall₂_map_of_mem {α β : Type} {P : β → β → Prop} (f1 f2 : α → β) :
    ∀ (l : List α), (∀ x ∈ l, P (f1 x) (f2 x)) →
      List.Forall₂ P (l.map f1) (l.map f2) := by
  intro l
  induction l with
  | nil => intro _; exact List.Forall₂.nil
  | cons a l ih =>
    intro h
    exact List.Forall₂.cons (h a (List.mem_cons_self a l))
      (ih (fun x hx => h x (List.mem_cons_of_mem a hx)))

/-! Section: Claim C9 — per-file parse failures are contained. -/

/-- Claim C9, confirmed: the embedding of `analyze_project` is a total
function (the `except Exception` handler of `_analyze_file` is the `error`
branch of the parser collaborator), the node of a failing file keeps its empty
first-pass symbol and import data, and the node built for any other file is
unaffected by the parse result of the failing file. -/
theorem perFile_failure_isolated :
    ∀ (root : String) (listing : Option (List String))
      (parse : String → Except String ParseData) (fp err : String),
      (parse fp = Except.error err →
        ∀ e ∈ analyzeProject root listing parse, e.2.filePath = fp →
          e.2.classes = [] ∧ e.2.functions = [] ∧ e.2.imports = []) ∧
      (∀ parse2 : String → Except String ParseData,
        (∀ q : String, q ≠ fp → parse q = parse2 q) →
        List.Forall₂ (fun e1 e2 => e1.1 = e2.1 ∧ e1.2.filePath = e2.2.filePath ∧
            (e1.2.filePath ≠ fp → e1.2 = e2.2))
          (analyzeProject root listing parse) (analyzeProject root listing parse2)) := by
  intro root listing parse fp err
  constructor
  · intro herr e he hfp
    rw [analyzeProject_eq, List.mem_map] at he
    obtain ⟨p, hp, rfl⟩ := he
    have hpath : p = fp := by
      have h1 : (analyzeFile parse (initialNode root p)).filePath = p :=
        analyzeFile_filePath parse (initialNode root p)
      simpa [stampOwnership, h1] using hfp
    subst hpath
    simp [stampOwnership, analyzeFile, herr, initialNode]
  · intro parse2 hagree
    rw [analyzeProject_eq, analyzeProject_eq]
    apply forall₂_map_of_mem
    intro p hp
    have h1 : (analyzeFile parse (initialNode root p)).filePath = p :=
      analyzeFile_filePath parse (initialNode root p)
    have h2 : (analyzeFile parse2 (initialNode root p)).filePath = p :=
      analyzeFile_filePath parse2 (initialNode root p)
    refine ⟨rfl, by simp [stampOwnership, h1, h2], ?_⟩
    intro hne
    have hpq : p ≠ fp := by simpa [stampOwnership, h1] using hne
    have hcongr := analyzeFile_congr (initialNode root p) (hagree p hpq)
    simp [hcongr]

/-- Witness for `perFile_failure_isolated` at the concrete project in which
`/r/bad.py` fails to parse and `/r/good.py` succeeds. -/
theorem perFile_failure_isolated_witness :
    (∀ e ∈ gMixed, e.2.filePath = "/r/bad.py" →
      e.2.classes = [] ∧ e.2.functions = [] ∧ e.2.imports = []) ∧
    List.Forall₂ (fun e1 e2 => e1.1 = e2.1 ∧ e1.2.filePath = e2.2.filePath ∧
        (e1.2.filePath ≠ "/r/bad.py" → e1.2 = e2.2))
      gMixed gMixed :=
  ⟨(perFile_failure_isolated "/r" (some ["/r/bad.py", "/r/good.py"]) parseMixed
      "/r/bad.py" "SyntaxError").1 rfl,
   (perFile_failure_isolated "/r" (some ["/r/bad.py", "/r/good.py"]) parseMixed
      "/r/bad.py" "SyntaxError").2 parseMixed (fun _ _ => rfl)⟩

/-! Section: Claim C10 — ownership comes from the full path, with token
priority. -/

theorem inferOwnership_infra (node : PyModule)
    (h : strContains (strLower (slashNormalize node.filePath)) "infrastructure" = true ∨
      strContains (strLower (slashNormalize node.filePath)) "persistence" = true ∨
      strContains (strLower (slashNormalize node.filePath)) "caching" = true) :
    inferOwnership node = "Infrastructure" := by
  simp only [inferOwnership]
  rcases h with h | h | h <;> simp [h]

theorem inferOwnership_core (node : PyModule)
    (h1 : strContains (strLower (slashNormalize node.filePath)) "infrastructure" = false)
    (h2 : strContains (strLower (slashNormalize node.filePath)) "persistence" = false)
    (h3 : strContains (strLower (slashNormalize node.filePath)) "caching" = false)
    (h4 : strContains (strLower (slashNormalize node.filePath)) "core" = true ∨
      strContains (strLower (slashNormalize node.filePath)) "orchestrator" = true) :
    inferOwnership node = "Core" := by
  simp only [inferOwnership]
  rw [h1, h2, h3]
  rcases h4 with h | h <;> simp [h]

theorem strContains_through_root {p root t : String}
    (h1 : strContains (strLower (slashNormalize root)) t = true)
    (h2 : strStartsWith p root = true) :
    strContains (strLower (slashNormalize p)) t = true := by
  rw [strContains_iff] at h1 ⊢
  rw [strStartsWith_iff] at h2
  have hmap :
      (strLower (slashNormalize root)).data <+: (strLower (slashNormalize p)).data :=
    (h2.map (fun c => if c = '\\' then '/' else c)).map Char.toLower
  exact h1.trans hmap.isInfix

/-- Claim C10, amended: ownership is inferred from the full (absolute) file
path, lower-cased, so root-path tokens do affect every node — but only
subject to the fixed priority order.  Any path containing
`infrastructure`/`persistence`/`caching` is tagged `Infrastructure`
regardless of everything else; `core`/`orchestrator` yields `Core` only when
no higher-priority token occurs; consequently a root whose path contains
`infrastructure` forces the `Infrastructure` tag on every node, while a root
containing only a lower-priority token such as `core` tags only the nodes
without a higher-priority token in their path. -/
theorem ownership_full_path_priority :
    (∀ node : PyModule,
      (strContains (strLower (slashNormalize node.filePath)) "infrastructure" = true ∨
        strContains (strLower (slashNormalize node.filePath)) "persistence" = true ∨
        strContains (strLower (slashNormalize node.filePath)) "caching" = true) →
      inferOwnership node = "Infrastructure") ∧
    (∀ node : PyModule,
      strContains (strLower (slashNormalize node.filePath)) "infrastructure" = false →
      strContains (strLower (slashNormalize node.filePath)) "persistence" = false →
      strContains (strLower (slashNormalize node.filePath)) "caching" = false →
      (strContains (strLower (slashNormalize node.filePath)) "core" = true ∨
        strContains (strLower (slashNormalize node.filePath)) "orchestrator" = true) →
      inferOwnership node = "Core") ∧
    (∀ (root : String) (files : List String) (parse : String → Except String ParseData),
      strContains (strLower (slashNormalize root)) "infrastructure" = true →
      (∀ p ∈ files, strStartsWith p root = true) →
      ∀ e ∈ analyzeProject root (some files) parse, e.2.ownership = "Infrastructure") := by
  refine ⟨inferOwnership_infra, inferOwnership_core, ?_⟩
  intro root files parse hroot hpref e he
  rw [analyzeProject_eq, List.mem_map] at he
  obtain ⟨p, hp, rfl⟩ := he
  have hpfile : p ∈ files := by
    have := (List.mem_filter.mp hp).1
    simpa using this
  have hfile : (analyzeFile parse (initialNode root p)).filePath = p :=
    analyzeFile_filePath parse (initialNode root p)
  show inferOwnership (analyzeFile parse (initialNode root p)) = "Infrastructure"
  apply inferOwnership_infra
  left
  rw [hfile]
  exact strContains_through_root hroot (hpref p hpfile)

/-- Claim C10, counterexample: the analysis root `/repo/core_app` contains the
token `core`, yet the node for `/repo/core_app/infrastructure/x.py` is tagged
`Infrastructure`, not `Core` — the root token does not determine the tag of
every node. -/
theorem ownership_root_token_counterexample :
    strContains (strLower (slashNormalize "/repo/core_app")) "core" = true ∧
      (lookupMod gOwn "infrastructure.x").map PyModule.ownership = some "Infrastructure" ∧
      (lookupMod gOwn "infrastructure.x").map PyModule.ownership ≠ some "Core" ∧
      (lookupMod gOwn "main").map PyModule.ownership = some "Core" := by decide

/-- Witness for `ownership_full_path_priority` at concrete nodes and a
concrete build. -/
theorem ownership_full_path_priority_witness :
    inferOwnership (PyModule.mk "/app/persistence/db.py" "db" [] [] [] "Unknown") =
        "Infrastructure" ∧
      inferOwnership (PyModule.mk "/app/core/x.py" "x" [] [] [] "Unknown") = "Core" ∧
      (∀ e ∈ analyzeProject "/infrastructure_srv" (some ["/infrastructure_srv/app.py"])
          (fun _ => Except.ok (importsOnly [])), e.2.ownership = "Infrastructure") :=
  ⟨ownership_full_path_priority.1 _ (Or.inr (Or.inl (by decide))),
   ownership_full_path_priority.2.1 _ (by decide) (by decide) (by decide)
     (Or.inl (by decide)),
   ownership_full_path_priority.2.2 "/infrastructure_srv" ["/infrastructure_srv/app.py"]
     (fun _ => Except.ok (importsOnly [])) (by decide) (by decide)⟩

/-! Section: Claim C3 — the layered rule fires exactly on edges outside the
allowed-downward table. -/

theorem layeredValidate_mem_iff
    (mods : List (String × String)) (rels : List (String × String))
    (a b fl tl : String)
    (hedge : (a, b) ∈ rels)
    (ha : ownershipOf mods a = some fl) (hb : ownershipOf mods b = some tl)
    (hfl : fl ≠ "") (htl : tl ≠ "") (hne : fl ≠ tl) :
    (LayerViolation.mk a fl b tl ∈ layeredValidate mods rels ↔
      tl ∉ allowedDownward fl) := by
  constructor
  · intro hmem
    rw [layeredValidate, List.mem_filterMap] at hmem
    obtain ⟨rel, _, heq⟩ := hmem
    cases h1 : ownershipOf mods rel.1 with
    | none => rw [h1] at heq; exact absurd heq (by simp)
    | some fl' =>
      cases h2 : ownershipOf mods rel.2 with
      | none => rw [h1, h2] at heq; exact absurd heq (by simp)
      | some tl' =>
        rw [h1, h2] at heq
        have heq' :
            (if fl' ≠ "" ∧ tl' ≠ "" ∧ fl' ≠ tl' ∧ tl' ∉ allowedDownward fl' then
              some (LayerViolation.mk rel.1 fl' rel.2 tl') else none) =
              some (LayerViolation.mk a fl b tl) := heq
        by_cases hcond : fl' ≠ "" ∧ tl' ≠ "" ∧ fl' ≠ tl' ∧ tl' ∉ allowedDownward fl'
        · rw [if_pos hcond] at heq'
          have h3 : fl' = fl ∧ tl' = tl := by
            have := Option.some.inj heq'
            exact ⟨congrArg LayerViolation.srcLayer this,
              congrArg LayerViolation.dstLayer this⟩
          rw [← h3.1, ← h3.2]
          exact hcond.2.2.2
        · rw [if_neg hcond] at heq'
          exact absurd heq' (by simp)
  · intro hnot
    rw [layeredValidate, List.mem_filterMap]
    refine ⟨(a, b), hedge, ?_⟩
    show (match ownershipOf mods a, ownershipOf mods b with
      | some fromLayer, some toLayer =>
        if fromLayer ≠ "" ∧ toLayer ≠ "" ∧ fromLayer ≠ toLayer ∧
            toLayer ∉ allowedDownward fromLayer then
          some (LayerViolation.mk a fromLayer b toLayer)
        else none
      | _, _ => none) = some (LayerViolation.mk a fl b tl)
    rw [ha, hb]
    show (if fl ≠ "" ∧ tl ≠ "" ∧ fl ≠ tl ∧ tl ∉ allowedDownward fl then
      some (LayerViolation.mk a fl b tl) else none) = some (LayerViolation.mk a fl b tl)
    rw [if_pos ⟨hfl, htl, hne, hnot⟩]

/-- Claim C3, confirmed: for a summary edge `A → B` whose endpoint ownerships
are both present and differ, `LayeredArchitectureViolation.validate` reports
the violation record for that edge exactly when `ownership(B)` is outside
`ALLOWED_DOWNWARD[ownership(A)]`; the `pkg.data.models → pkg.interface.api`
project yields exactly one violation naming both modules, and the
`pkg.core.engine → pkg.infrastructure.cache` project yields none. -/
theorem layered_rule_characterization :
    (∀ (mods rels : List (String × String)) (a b fl tl : String),
      (a, b) ∈ rels →
      ownershipOf mods a = some fl → ownershipOf mods b = some tl →
      fl ≠ "" → tl ≠ "" → fl ≠ tl →
      (LayerViolation.mk a fl b tl ∈ layeredValidate mods rels ↔
        tl ∉ allowedDownward fl)) ∧
    (layeredValidate (summaryOwnership gLayerUp) (relationships gLayerUp) =
        [LayerViolation.mk "pkg.data.models" "Data" "pkg.interface.api" "Interface"] ∧
      strContains
        (renderLayerViolation
          (LayerViolation.mk "pkg.data.models" "Data" "pkg.interface.api" "Interface"))
        "pkg.data.models" = true ∧
      strContains
        (renderLayerViolation
          (LayerViolation.mk "pkg.data.models" "Data" "pkg.interface.api" "Interface"))
        "pkg.interface.api" = true) ∧
    layeredValidate (summaryOwnership gLayerDown) (relationships gLayerDown) = [] :=
  ⟨fun mods rels a b fl tl hedge ha hb hfl htl hne =>
      layeredValidate_mem_iff mods rels a b fl tl hedge ha hb hfl htl hne,
    by decide, by decide⟩

/-- Witness for the general part of `layered_rule_characterization` at the
`gLayerUp` project. -/
theorem layered_rule_characterization_witness :
    LayerViolation.mk "pkg.data.models" "Data" "pkg.interface.api" "Interface" ∈
        layeredValidate (summaryOwnership gLayerUp) (relationships gLayerUp) ↔
      "Interface" ∉ allowedDownward "Data" :=
  layered_rule_characterization.1 (summaryOwnership gLayerUp) (relationships gLayerUp)
    "pkg.data.models" "pkg.interface.api" "Data" "Interface"
    (by decide) (by decide) (by decide) (by decide) (by decide) (by decide)

/-! Section: Claim C2, groundwork — adjacency, the node universe, fuel
accounting, topological orders and the grey stack. -/

theorem foldl_dedup_mem (x : String) :
    ∀ (l acc : List String),
      (x ∈ l.foldl (fun acc a => if a ∈ acc then acc else acc ++ [a]) acc ↔
        x ∈ acc ∨ x ∈ l) := by
  intro l
  induction l with
  | nil => intro acc; simp
  | cons a l ih =>
    intro acc
    simp only [List.foldl_cons]
    by_cases h : a ∈ acc
    · rw [if_pos h, ih]
      constructor
      · rintro (hx | hx)
        · exact Or.inl hx
        · exact Or.inr (List.mem_cons_of_mem a hx)
      · rintro (hx | hx)
        · exact Or.inl hx
        · rcases List.mem_cons.mp hx with rfl | hx'
          · exact Or.inl h
          · exact Or.inr hx'
    · rw [if_neg h, ih]
      constructor
      · rintro (hx | hx)
        · rcases List.mem_append.mp hx with hx' | hx'
          · exact Or.inl hx'
          · simp at hx'
            exact Or.inr (hx' ▸ List.mem_cons_self a l)
        · exact Or.inr (List.mem_cons_of_mem a hx)
      · rintro (hx | hx)
        · exact Or.inl (List.mem_append_left _ hx)
        · rcases List.mem_cons.mp hx with rfl | hx'
          · exact Or.inl (List.mem_append_right _ (by simp))
          · exact Or.inr hx'

theorem adjKeys_mem (rels : List (String × String)) (x : String) :
    x ∈ adjKeys rels ↔ x ∈ rels.map Prod.fst := by
  rw [adjKeys, foldl_dedup_mem]
  simp

theorem neighborsOf_mem (rels : List (String × String)) (node nb : String) :
    nb ∈ neighborsOf rels node ↔ (node, nb) ∈ rels := by
  rw [neighborsOf]
  constructor
  · intro h
    rw [List.mem_map] at h
    obtain ⟨r, hr, rfl⟩ := h
    rw [List.mem_filter] at hr
    have : r.1 = node := by simpa using hr.2
    have hpair : r = (node, r.2) := by rw [← this]
    exact hpair ▸ hr.1
  · intro h
    exact List.mem_map.mpr ⟨(node, nb), List.mem_filter.mpr ⟨h, by simp⟩, rfl⟩

theorem mem_univ_fst {rels : List (String × String)} {a b : String}
    (h : (a, b) ∈ rels) : a ∈ univRel rels :=
  List.mem_append_left _ (List.mem_map_of_mem Prod.fst h)

theorem mem_univ_snd {rels : List (String × String)} {a b : String}
    (h : (a, b) ∈ rels) : b ∈ univRel rels :=
  List.mem_append_right _ (List.mem_map_of_mem Prod.snd h)

theorem freshCount_le_univ (rels : List (String × String)) (visited : List String) :
    freshCount rels visited ≤ (univRel rels).length :=
  List.length_filter_le _ _

theorem freshCount_mono (rels : List (String × String)) {v1 v2 : List String}
    (h : v1 ⊆ v2) : freshCount rels v2 ≤ freshCount rels v1 := by
  apply List.Sublist.length_le
  apply List.monotone_filter_right
  intro a ha
  simp only [decide_eq_true_eq] at ha ⊢
  exact fun hmem => ha (h hmem)

theorem freshCount_lt (rels : List (String × String)) (visited : List String)
    (node : String) (hu : node ∈ univRel rels) (hv : node ∉ visited) :
    freshCount rels (visited ++ [node]) < freshCount rels visited := by
  have hsub : ((univRel rels).filter (fun x => decide (x ∉ visited ++ [node]))) =
      (((univRel rels).filter (fun x => decide (x ∉ visited))).filter
        (fun x => decide (x ∉ visited ++ [node]))) := by
    rw [List.filter_filter]
    apply List.filter_congr
    intro a _
    rw [Bool.eq_iff_iff]
    simp only [Bool.and_eq_true, decide_eq_true_eq, List.mem_append]
    constructor
    · intro h; exact ⟨h, fun hmem => h (Or.inl hmem)⟩
    · intro h; exact h.1
  rw [freshCount, freshCount, hsub]
  apply List.length_filter_lt_length_iff_exists.mpr
  refine ⟨node, ?_, ?_⟩
  · rw [List.mem_filter]
    exact ⟨hu, by simpa using hv⟩
  · simp

theorem freshCount_zero_absurd (rels : List (String × String)) (visited : List String)
    {node : String} (hu : node ∈ univRel rels) (hv : node ∉ visited)
    (h : freshCount rels visited = 0) : False := by
  rw [freshCount, List.length_eq_zero] at h
  have : node ∈ (univRel rels).filter (fun x => decide (x ∉ visited)) := by
    rw [List.mem_filter]
    exact ⟨hu, by simpa using hv⟩
  rw [h] at this
  exact List.not_mem_nil _ this

theorem topoOk_suffix (rels : List (String × String)) :
    ∀ {L S : List String}, TopoOk rels L → S <:+ L → TopoOk rels S := by
  intro L
  induction L with
  | nil =>
    intro S _ hS
    rw [List.suffix_nil.mp hS]
    trivial
  | cons a rest ih =>
    intro S htopo hS
    rcases List.suffix_cons_iff.mp hS with rfl | hS'
    · exact htopo
    · exact ih htopo.2 hS'

theorem chain_into_suffix (rels : List (String × String)) {L : List String}
    (htopo : TopoOk rels L) :
    ∀ (ws : List String) (a : String) (suf : List String),
      (a :: suf) <:+ L → List.Chain' (EdgeOf rels) (a :: ws) →
      ∀ x ∈ ws, x ∈ suf := by
  intro ws
  induction ws with
  | nil => intro a suf _ _ x hx; exact absurd hx (List.not_mem_nil x)
  | cons b ws ih =>
    intro a suf hsuf hchain x hx
    have hstep : EdgeOf rels a b ∧ List.Chain' (EdgeOf rels) (b :: ws) :=
      List.chain'_cons.mp hchain
    have hbs : b ∈ suf := (topoOk_suffix rels htopo hsuf).1 b hstep.1
    obtain ⟨pre, suf', hsplit⟩ := List.append_of_mem hbs
    have hsuf' : (b :: suf') <:+ L := by
      apply List.IsSuffix.trans _ hsuf
      rw [hsplit]
      refine ⟨a :: pre, ?_⟩
      simp
    rcases List.mem_cons.mp hx with rfl | hx'
    · exact hbs
    · have : x ∈ suf' := ih b suf' hsuf' hstep.2 x hx'
      rw [hsplit]
      exact List.mem_append_right _ (List.mem_cons_of_mem b this)

theorem topo_no_closed (rels : List (String × String)) {L : List String}
    (htopo : TopoOk rels L) (hnd : L.Nodup) {a : String} (ha : a ∈ L)
    (l : List String) : ¬ List.Chain' (EdgeOf rels) (a :: (l ++ [a])) := by
  intro hchain
  obtain ⟨pre, suf, hsplit⟩ := List.append_of_mem ha
  have hsuf : (a :: suf) <:+ L := ⟨pre, hsplit.symm⟩
  have hmem : a ∈ suf :=
    chain_into_suffix rels htopo (l ++ [a]) a suf hsuf hchain a
      (List.mem_append_right _ (by simp))
  have hnd' : (a :: suf).Nodup := hsuf.sublist.nodup hnd
  exact (List.nodup_cons.mp hnd').1 hmem

theorem grey_closed (rels : List (String × String)) {path : List String}
    {node nb : String}
    (hchain : List.Chain' (fun a b => (b, a) ∈ rels) path)
    (hhead : path.head? = some node)
    (hedge : (node, nb) ∈ rels) (hmem : nb ∈ path) : HasClosedWalk rels := by
  obtain ⟨pre, suf, hsplit⟩ := List.append_of_mem hmem
  have hpref : (pre ++ [nb]) <+: path := by
    rw [hsplit]
    refine ⟨suf, ?_⟩
    simp
  have hgrey : List.Chain' (fun a b => (b, a) ∈ rels) (pre ++ [nb]) :=
    hchain.prefix hpref
  have hrev : List.Chain' (EdgeOf rels) (nb :: pre.reverse) := by
    have := List.chain'_reverse.mpr hgrey
    simpa [EdgeOf, Function.flip_def] using this
  refine ⟨nb, pre.reverse, ?_⟩
  rw [show nb :: (pre.reverse ++ [nb]) = (nb :: pre.reverse) ++ [nb] by simp,
    List.chain'_append]
  refine ⟨hrev, List.chain'_singleton nb, ?_⟩
  intro x hx y hy
  have hy' : nb = y := by simpa using hy
  cases pre with
  | nil =>
    have hx' : nb = x := by simpa using hx
    have hnode : nb = node := by
      rw [hsplit] at hhead
      simpa using hhead
    rw [← hx', ← hy', hnode]
    rw [hnode] at hedge
    exact hedge
  | cons p0 pre' =>
    have hp0 : p0 = node := by
      rw [hsplit] at hhead
      simpa using hhead
    have hlast : (nb :: (p0 :: pre').reverse).getLast? = some p0 := by
      rw [List.reverse_cons,
        show nb :: (pre'.reverse ++ [p0]) = (nb :: pre'.reverse) ++ [p0] from rfl,
        List.getLast?_concat]
    rw [hlast] at hx
    have hx' : p0 = x := by simpa using hx
    rw [← hx', ← hy', hp0]
    exact hedge

theorem cycleInv_init (rels : List (String × String)) : CycleInv rels [] [] :=
  ⟨List.Subset.refl [], [], List.nodup_nil, by simp, trivial⟩

theorem cycleInv_push (rels : List (String × String)) {visited path : List String}
    {node : String} (hinv : CycleInv rels visited path) (hnv : node ∉ visited) :
    CycleInv rels (visited ++ [node]) (node :: path) := by
  obtain ⟨hsub, L, hnd, hiff, htopo⟩ := hinv
  refine ⟨?_, L, hnd, ?_, htopo⟩
  · intro x hx
    rcases List.mem_cons.mp hx with rfl | hx'
    · exact List.mem_append_right _ (by simp)
    · exact List.mem_append_left _ (hsub hx')
  · intro x
    rw [hiff]
    constructor
    · rintro ⟨hxv, hxp⟩
      refine ⟨List.mem_append_left _ hxv, ?_⟩
      intro hx
      rcases List.mem_cons.mp hx with rfl | hx'
      · exact hnv hxv
      · exact hxp hx'
    · rintro ⟨hxv, hxp⟩
      rcases List.mem_append.mp hxv with hx' | hx'
      · exact ⟨hx', fun hp => hxp (List.mem_cons_of_mem node hp)⟩
      · exfalso
        have : x = node := by simpa using hx'
        exact hxp (this ▸ List.mem_cons_self node path)

theorem cycleInv_pop (rels : List (String × String)) {visited path : List String}
    {node : String} (hinv : CycleInv rels visited (node :: path))
    (hsucc : ∀ y, (node, y) ∈ rels → y ∈ visited ∧ y ∉ node :: path)
    (hnv : node ∈ visited) (hnp : node ∉ path) : CycleInv rels visited path := by
  obtain ⟨hsub, L, hnd, hiff, htopo⟩ := hinv
  refine ⟨fun x hx => hsub (List.mem_cons_of_mem node hx), node :: L, ?_, ?_, ?_⟩
  · rw [List.nodup_cons]
    exact ⟨fun hmem => ((hiff node).mp hmem).2 (List.mem_cons_self node path), hnd⟩
  · intro x
    constructor
    · intro hx
      rcases List.mem_cons.mp hx with rfl | hx'
      · exact ⟨hnv, hnp⟩
      · obtain ⟨hxv, hxp⟩ := (hiff x).mp hx'
        exact ⟨hxv, fun hp => hxp (List.mem_cons_of_mem node hp)⟩
    · rintro ⟨hxv, hxp⟩
      by_cases hxn : x = node
      · exact hxn ▸ List.mem_cons_self node L
      · apply List.mem_cons_of_mem
        apply (hiff x).mpr
        refine ⟨hxv, ?_⟩
        intro hx
        rcases List.mem_cons.mp hx with h | h
        · exact hxn h
        · exact hxp h
  · exact ⟨fun y hy => (hiff y).mpr (hsucc y hy), htopo⟩

/-! Section: Claim C2, main induction over the fuel. -/

theorem hc_cl_spec (rels : List (String × String)) :
    ∀ fuel, HCspec rels fuel ∧ CLspec rels fuel := by
  intro fuel
  induction fuel using Nat.strong_induction_on with
  | _ fuel ih =>
    have hHC : HCspec rels fuel := by
      intro node visited path hinv hnv hnu hchain hfresh
      cases fuel with
      | zero =>
        exact absurd (Nat.le_zero.mp hfresh)
          (fun h => freshCount_zero_absurd rels visited hnu hnv h)
      | succ f =>
        have hCL : CLspec rels f := (ih f (Nat.lt_succ_self f)).2
        have hinv' : CycleInv rels (visited ++ [node]) (node :: path) :=
          cycleInv_push rels hinv hnv
        have hfresh' : freshCount rels (visited ++ [node]) ≤ f := by
          have := freshCount_lt rels visited node hnu hnv
          omega
        have hnbs : ∀ nb, nb ∈ neighborsOf rels node → (node, nb) ∈ rels :=
          fun nb hnb => (neighborsOf_mem rels node nb).mp hnb
        have hmain := hCL (neighborsOf rels node) node (visited ++ [node]) path
          hinv' hchain hnbs hfresh'
        simp only [hasCycleFrom]
        refine ⟨?_, ?_, hmain.2.1, ?_⟩
        · exact fun x hx => hmain.1 (List.mem_append_left _ hx)
        · exact hmain.1 (List.mem_append_right _ (by simp))
        · intro hfalse
          have hpost := hmain.2.2 hfalse
          apply cycleInv_pop rels hpost.1
          · intro y hy
            exact hpost.2 y ((neighborsOf_mem rels node y).mpr hy)
          · exact hmain.1 (List.mem_append_right _ (by simp))
          · exact fun hp => hnv (hinv.1 hp)
    have hCLf : CLspec rels fuel := by
      intro nbs
      induction nbs with
      | nil =>
        intro node visited path hinv hchain hnbs hfresh
        simp only [cycleLoop]
        exact ⟨List.Subset.refl _, fun h => absurd h (by simp),
          fun _ => ⟨hinv, fun nb hnb => absurd hnb (List.not_mem_nil nb)⟩⟩
      | cons nb rest ihn =>
        intro node visited path hinv hchain hnbs hfresh
        simp only [cycleLoop]
        by_cases h1 : nb ∈ node :: path
        · rw [if_pos h1]
          refine ⟨List.Subset.refl _, fun _ => ?_, fun hf => absurd hf (by simp)⟩
          exact grey_closed rels hchain rfl (hnbs nb (List.mem_cons_self nb rest)) h1
        · rw [if_neg h1]
          by_cases h2 : nb ∈ visited
          · rw [if_pos h2]
            have hrec := ihn node visited path hinv hchain
              (fun x hx => hnbs x (List.mem_cons_of_mem nb hx)) hfresh
            refine ⟨hrec.1, hrec.2.1, fun hf => ⟨(hrec.2.2 hf).1, ?_⟩⟩
            intro x hx
            rcases List.mem_cons.mp hx with rfl | hx'
            · exact ⟨hrec.1 h2, h1⟩
            · exact (hrec.2.2 hf).2 x hx'
          · rw [if_neg h2]
            have hchain' :
                List.Chain' (fun a b => (b, a) ∈ rels) (nb :: node :: path) :=
              List.chain'_cons.mpr ⟨hnbs nb (List.mem_cons_self nb rest), hchain⟩
            have hr := hHC nb visited (node :: path) hinv h2
              (mem_univ_snd (hnbs nb (List.mem_cons_self nb rest))) hchain' hfresh
            by_cases h3 : (hasCycleFrom rels fuel nb visited (node :: path)).1 = true
            · rw [if_pos h3]
              exact ⟨hr.1, fun _ => hr.2.2.1 h3, fun hf => absurd h3 (by simp [hf])⟩
            · rw [if_neg h3]
              have hfalse : (hasCycleFrom rels fuel nb visited (node :: path)).1 = false :=
                Bool.eq_false_iff.mpr h3
              have hinv2 := hr.2.2.2 hfalse
              have hrec := ihn node (hasCycleFrom rels fuel nb visited (node :: path)).2.1
                path hinv2 hchain
                (fun x hx => hnbs x (List.mem_cons_of_mem nb hx))
                (Nat.le_trans (freshCount_mono rels hr.1) hfresh)
              refine ⟨fun x hx => hrec.1 (hr.1 hx), hrec.2.1,
                fun hf => ⟨(hrec.2.2 hf).1, ?_⟩⟩
              intro x hx
              rcases List.mem_cons.mp hx with rfl | hx'
              · exact ⟨hrec.1 hr.2.1, h1⟩
              · exact (hrec.2.2 hf).2 x hx'
    exact ⟨hHC, hCLf⟩

/-! Section: Claim C2, the top-level loop of the cycle rule. -/

theorem fresh_le_cycle_fuel (rels : List (String × String)) (visited : List String) :
    freshCount rels visited ≤ 2 * rels.length + 1 := by
  have h1 := freshCount_le_univ rels visited
  have h2 : (univRel rels).length = rels.length + rels.length := by
    rw [univRel, List.length_append, List.length_map, List.length_map]
  omega

theorem cycleTopLoop_acc (rels : List (String × String)) :
    ∀ (keys visited : List String) (accV : List (List String)),
      ∃ extra, cycleTopLoop rels keys visited accV = accV ++ extra := by
  intro keys
  induction keys with
  | nil => intro _ accV; exact ⟨[], by simp [cycleTopLoop]⟩
  | cons k rest ih =>
    intro visited accV
    simp only [cycleTopLoop]
    by_cases hk : k ∈ visited
    · rw [if_pos hk]
      exact ih visited accV
    · rw [if_neg hk]
      by_cases h3 :
          (hasCycleFrom rels (2 * rels.length + 1) k visited []).1 = true
      · rw [if_pos h3]
        obtain ⟨e, he⟩ := ih (hasCycleFrom rels (2 * rels.length + 1) k visited []).2.1
          (accV ++ [(hasCycleFrom rels (2 * rels.length + 1) k visited []).2.2])
        exact ⟨(hasCycleFrom rels (2 * rels.length + 1) k visited []).2.2 :: e,
          by rw [he]; simp⟩
      · rw [if_neg h3]
        exact ih (hasCycleFrom rels (2 * rels.length + 1) k visited []).2.1 accV

theorem cycleTopLoop_sound (rels : List (String × String)) :
    ∀ (keys visited : List String) (accV : List (List String)),
      CycleInv rels visited [] →
      (∀ k ∈ keys, k ∈ rels.map Prod.fst) →
      cycleTopLoop rels keys visited accV ≠ accV → HasClosedWalk rels := by
  intro keys
  induction keys with
  | nil =>
    intro visited accV _ _ hne
    exact absurd rfl hne
  | cons k rest ih =>
    intro visited accV hinv hkeys hne
    simp only [cycleTopLoop] at hne
    by_cases hk : k ∈ visited
    · rw [if_pos hk] at hne
      exact ih visited accV hinv (fun x hx => hkeys x (List.mem_cons_of_mem k hx)) hne
    · rw [if_neg hk] at hne
      have hku : k ∈ univRel rels :=
        List.mem_append_left _ (hkeys k (List.mem_cons_self k rest))
      have hr := (hc_cl_spec rels (2 * rels.length + 1)).1 k visited [] hinv hk hku
        (List.chain'_singleton k) (fresh_le_cycle_fuel rels visited)
      by_cases h3 : (hasCycleFrom rels (2 * rels.length + 1) k visited []).1 = true
      · exact hr.2.2.1 h3
      · rw [if_neg h3] at hne
        exact ih _ accV (hr.2.2.2 (Bool.eq_false_iff.mpr h3))
          (fun x hx => hkeys x (List.mem_cons_of_mem k hx)) hne

theorem cycleTopLoop_complete (rels : List (String × String)) :
    ∀ (keys visited : List String) (accV : List (List String)),
      CycleInv rels visited [] →
      (∀ k ∈ keys, k ∈ rels.map Prod.fst) →
      cycleTopLoop rels keys visited accV = accV →
      ∃ fv, CycleInv rels fv [] ∧ visited ⊆ fv ∧ ∀ k ∈ keys, k ∈ fv := by
  intro keys
  induction keys with
  | nil =>
    intro visited accV hinv _ _
    exact ⟨visited, hinv, List.Subset.refl _, fun k hk => absurd hk (List.not_mem_nil k)⟩
  | cons k rest ih =>
    intro visited accV hinv hkeys heq
    simp only [cycleTopLoop] at heq
    by_cases hk : k ∈ visited
    · rw [if_pos hk] at heq
      obtain ⟨fv, hfv, hsub, hrest⟩ :=
        ih visited accV hinv (fun x hx => hkeys x (List.mem_cons_of_mem k hx)) heq
      refine ⟨fv, hfv, hsub, ?_⟩
      intro x hx
      rcases List.mem_cons.mp hx with rfl | hx'
      · exact hsub hk
      · exact hrest x hx'
    · rw [if_neg hk] at heq
      have hku : k ∈ univRel rels :=
        List.mem_append_left _ (hkeys k (List.mem_cons_self k rest))
      have hr := (hc_cl_spec rels (2 * rels.length + 1)).1 k visited [] hinv hk hku
        (List.chain'_singleton k) (fresh_le_cycle_fuel rels visited)
      by_cases h3 : (hasCycleFrom rels (2 * rels.length + 1) k visited []).1 = true
      · exfalso
        rw [if_pos h3] at heq
        obtain ⟨e, he⟩ := cycleTopLoop_acc rels rest
          (hasCycleFrom rels (2 * rels.length + 1) k visited []).2.1
          (accV ++ [(hasCycleFrom rels (2 * rels.length + 1) k visited []).2.2])
        rw [he] at heq
        have := congrArg List.length heq
        simp at this
      · rw [if_neg h3] at heq
        obtain ⟨fv, hfv, hsub, hrest⟩ :=
          ih _ accV (hr.2.2.2 (Bool.eq_false_iff.mpr h3))
            (fun x hx => hkeys x (List.mem_cons_of_mem k hx)) heq
        refine ⟨fv, hfv, fun x hx => hsub (hr.1 hx), ?_⟩
        intro x hx
        rcases List.mem_cons.mp hx with rfl | hx'
        · exact hsub hr.2.1
        · exact hrest x hx'

/-- Claim C2, confirmed: `NoCyclicImports.validate` reports a non-empty
violation list exactly when the directed import-edge graph derived from the
relationships of the summary contains a closed walk; on the mutual
`pkg.a`/`pkg.b` project it reports exactly one violation whose cycle set
contains both module ids. -/
theorem cycle_rule_iff_closed_walk :
    (∀ rels : List (String × String),
      noCyclicImports rels ≠ [] ↔ HasClosedWalk rels) ∧
    noCyclicImports (relationships gCyc) = [["pkg.b", "pkg.a"]] ∧
    "pkg.a" ∈ (["pkg.b", "pkg.a"] : List String) ∧
    "pkg.b" ∈ (["pkg.b", "pkg.a"] : List String) := by
  refine ⟨?_, by decide, by decide, by decide⟩
  intro rels
  constructor
  · intro hne
    exact cycleTopLoop_sound rels (adjKeys rels) [] [] (cycleInv_init rels)
      (fun k hk => (adjKeys_mem rels k).mp hk) hne
  · intro hwalk
    intro heq
    obtain ⟨fv, hfv, _, hcover⟩ := cycleTopLoop_complete rels (adjKeys rels) [] []
      (cycleInv_init rels) (fun k hk => (adjKeys_mem rels k).mp hk) heq
    obtain ⟨a, l, hchain⟩ := hwalk
    have hfst : a ∈ rels.map Prod.fst := by
      cases l with
      | nil =>
        have := List.chain'_pair.mp hchain
        exact List.mem_map.mpr ⟨(a, a), this, rfl⟩
      | cons b l' =>
        have := (List.chain'_cons.mp hchain).1
        exact List.mem_map.mpr ⟨(a, b), this, rfl⟩
    have hafv : a ∈ fv := hcover a ((adjKeys_mem rels a).mpr hfst)
    obtain ⟨_, L, hnd, hiff, htopo⟩ := hfv
    have haL : a ∈ L := (hiff a).mpr ⟨hafv, List.not_mem_nil a⟩
    exact topo_no_closed rels htopo hnd haL l hchain

end ArchAI
